import Mathlib

/-!
Verification of the core of `xml2json.py` (mogomo/xml2json-converter):
the recursive element-to-JSON converter `xml_to_dict` and the namespace
normalizer `preprocess_xml_tree`, embedded shallowly in Lean.

Python dicts are modelled as association lists in first-insertion order,
with `setKey` reproducing CPython's in-place update semantics (assignment
to an existing key keeps its position; a new key is appended at the end).
-/

set_option autoImplicit false

namespace X2J

/-- A parsed XML element as exposed by `xml.etree.ElementTree`: a tag,
an ordered attribute dictionary, optional direct leading text, and the
ordered list of child elements. -/
inductive Element where
  | mk (tag : String) (attrib : List (String × String)) (text : Option String)
       (children : List Element)

def Element.tag : Element → String
  | .mk t _ _ _ => t

def Element.attrib : Element → List (String × String)
  | .mk _ a _ _ => a

def Element.text : Element → Option String
  | .mk _ _ x _ => x

def Element.children : Element → List Element
  | .mk _ _ _ c => c

/-- JSON-compatible values, mirroring the Python type alias
`JsonValue = Union[Dict[str, Any], List[Any], str, int, float, bool, None]`.
Numbers are collapsed to `Int` here; the converter never produces the
`num` or `bool` variants, which is exactly what claim C8 asserts. -/
inductive JVal where
  | null
  | bool (b : Bool)
  | num (n : Int)
  | str (s : String)
  | obj (fields : List (String × JVal))
  | list (items : List JVal)

/-- The three conversion options consumed by `xml_to_dict`
(`preserve_root` and `pretty_print` never reach the converter). -/
structure Config where
  strip_namespaces : Bool
  preserve_mixed_content : Bool
  empty_elements_as_null : Bool

def defaultConfig : Config := ⟨false, true, false⟩

/-- Python `'}' in tag`. -/
def hasSep (s : String) : Bool := s.data.contains '}'

/-- Everything after the first `'}'`, on character lists:
Python `tag.split('}', 1)[1]`. -/
def dropThroughSep : List Char → List Char
  | [] => []
  | c :: cs => if c = '}' then cs else dropThroughSep cs

/-- Python `tag.split('}', 1)[1]` as a String operation. -/
def localPart (s : String) : String := ⟨dropThroughSep s.data⟩

/-- The inner `clean_tag` of `xml_to_dict`:
`if strip_namespaces and '}' in tag: return tag.split('}', 1)[1]`. -/
def clean_tag (strip : Bool) (tag : String) : String :=
  if strip && hasSep tag then localPart tag else tag

/-- The characters removed by Python `str.strip()`: exactly the
codepoints for which CPython's `str.isspace()` holds (the Unicode
whitespace set used by the Unicode database) — ASCII `\t \n \v \f \r`
and space, the separators U+001C–U+001F, next line U+0085, no-break
space U+00A0, U+1680, U+2000–U+200A, U+2028, U+2029, U+202F, U+205F,
and U+3000. -/
def isPySpace (c : Char) : Bool :=
  c = ' ' || c = '\t' || c = '\n' || c = '\r' || c = '\x0b' || c = '\x0c' ||
    c = '\x1c' || c = '\x1d' || c = '\x1e' || c = '\x1f' ||
    c = '\x85' || c = '\xa0' || c = '\u1680' ||
    c = '\u2000' || c = '\u2001' || c = '\u2002' || c = '\u2003' ||
    c = '\u2004' || c = '\u2005' || c = '\u2006' || c = '\u2007' ||
    c = '\u2008' || c = '\u2009' || c = '\u200a' ||
    c = '\u2028' || c = '\u2029' || c = '\u202f' || c = '\u205f' || c = '\u3000'

/-- Python `s.strip()`: remove leading and trailing whitespace. -/
def pyStrip (s : String) : String :=
  ⟨((s.data.dropWhile isPySpace).reverse.dropWhile isPySpace).reverse⟩

/-- Lines 52-55 of `xml2json.py`:
`text_content = ""` / `if element.text: text_content = element.text.strip()`.
`None` and the empty string are both falsy in Python. -/
def textContent : Option String → String
  | none => ""
  | some s => if s = "" then "" else pyStrip s

/-- CPython dict assignment `m[k] = v` on an insertion-ordered dict:
replace in place if the key is present, append otherwise. -/
def setKey {α : Type} : List (String × α) → String → α → List (String × α)
  | [], k, v => [(k, v)]
  | (k', v') :: rest, k, v =>
      if k' = k then (k, v) :: rest else (k', v') :: setKey rest k v

/-- CPython dict lookup `m[k]` / membership probe, as an `Option`. -/
def lookupKey {α : Type} : List (String × α) → String → Option α
  | [], _ => none
  | (k', v') :: rest, k => if k' = k then some v' else lookupKey rest k

/-- CPython `m.update(m2)`: assign every entry of `m2` into `m` in order. -/
def updateAll {α : Type} (m m2 : List (String × α)) : List (String × α) :=
  m2.foldl (fun acc p => setKey acc p.1 p.2) m

/-- Lines 47-50 of `xml2json.py`: the attribute loop
`result[f'@{clean_key}'] = value` (with `clean_key = clean_tag(key)`). -/
def attribResult (strip : Bool) (attrib : List (String × String)) :
    List (String × JVal) :=
  attrib.foldl (fun acc p => setKey acc ("@" ++ clean_tag strip p.1) (JVal.str p.2)) []

/-- Lines 62-69 of `xml2json.py`: merge one converted child into the
`children` dict, promoting to a list on the second same-tag occurrence. -/
def addChild (children : List (String × JVal)) (tag : String) (v : JVal) :
    List (String × JVal) :=
  match lookupKey children tag with
  | some old =>
      match old with
      | JVal.list xs => setKey children tag (JVal.list (xs ++ [v]))
      | _ => setKey children tag (JVal.list [old, v])
  | none => setKey children tag v

/-- The whole child-merging loop of `xml_to_dict`, over the already
converted `(tag, value)` pairs in document order. -/
def buildChildren (pairs : List (String × JVal)) : List (String × JVal) :=
  pairs.foldl (fun acc p => addChild acc p.1 p.2) []

/-- Line 84 / 86 of `xml2json.py`: `None if empty_elements_as_null else {}`. -/
def emptyVal (cfg : Config) : JVal :=
  if cfg.empty_elements_as_null then JVal.null else JVal.obj []

/-- Line 86 of `xml2json.py`:
`return result if result else (None if empty_elements_as_null else {})`. -/
def finalReturn (cfg : Config) (result : List (String × JVal)) : JVal :=
  match result with
  | [] => emptyVal cfg
  | p :: ps => JVal.obj (p :: ps)

/-- Lines 71-86 of `xml_to_dict`: assemble the element's result from its
attributes, its direct text, and its children's converted `(tag, value)`
pairs.  Mirrors the Python `if children: / elif text_content: / elif not
result:` cascade branch for branch. -/
def assemble (cfg : Config) (attrib : List (String × String)) (text : Option String)
    (pairs : List (String × JVal)) : JVal :=
  let result0 := attribResult cfg.strip_namespaces attrib
  let tc := textContent text
  match buildChildren pairs with
  | q :: qs =>
      let r1 := updateAll result0 (q :: qs)
      let r2 := if tc ≠ "" ∧ cfg.preserve_mixed_content = true then
                  setKey r1 "#text" (JVal.str tc)
                else r1
      finalReturn cfg r2
  | [] =>
      if tc ≠ "" then
        match result0 with
        | p :: ps => finalReturn cfg (setKey (p :: ps) "#text" (JVal.str tc))
        | [] => JVal.str tc
      else
        match result0 with
        | [] => emptyVal cfg
        | p :: ps => finalReturn cfg (p :: ps)

mutual

/-- `xml_to_dict(element, ...)`: recursive element-to-value conversion. -/
def xml_to_dict (e : Element) (cfg : Config) : JVal :=
  match e with
  | .mk _ attrib text children => assemble cfg attrib text (childPairs children cfg)

/-- The recursive part of the child loop: each child's cleaned tag paired
with its converted value, in document order. -/
def childPairs (l : List Element) (cfg : Config) : List (String × JVal) :=
  match l with
  | [] => []
  | c :: cs =>
      (clean_tag cfg.strip_namespaces c.tag, xml_to_dict c cfg) :: childPairs cs cfg

end

/-- One name rewrite of `preprocess_xml_tree`:
`tag.split('}', 1)[1] if '}' in tag else tag`. -/
def strip_name (s : String) : String :=
  if hasSep s then localPart s else s

/-- Lines 101-107 of `xml2json.py`: rebuild the attribute dict with
stripped keys (`new_attrib[new_key] = value`, later duplicates win). -/
def normAttrib (attrib : List (String × String)) : List (String × String) :=
  attrib.foldl (fun acc p => setKey acc (strip_name p.1) p.2) []

mutual

/-- The effect of `preprocess_xml_tree` (with `strip_namespaces=True`) on
one element: strip the tag, rebuild the attributes with stripped keys,
recurse into the children (`tree.iter()` visits every element once). -/
def preprocess_elem : Element → Element
  | .mk t a x cs => .mk (strip_name t) (normAttrib a) x (preprocess_list cs)

def preprocess_list : List Element → List Element
  | [] => []
  | c :: cs => preprocess_elem c :: preprocess_list cs

end

mutual

/-- Number of elements in the tree (for fuel bounds). -/
def esize : Element → Nat
  | .mk _ _ _ cs => 1 + esizeList cs

def esizeList : List Element → Nat
  | [] => 0
  | c :: cs => esize c + esizeList cs

end

mutual

/-- Fuelled interpreter for `xml_to_dict`: one unit of fuel per call
frame, `none` when the fuel runs out.  Used to state termination. -/
def fuelConvert (fuel : Nat) (e : Element) (cfg : Config) : Option JVal :=
  match fuel, e with
  | 0, _ => none
  | Nat.succ f, .mk _ attrib text children =>
      match fuelChildren f children cfg with
      | none => none
      | some pairs => some (assemble cfg attrib text pairs)
termination_by (fuel, 0)

def fuelChildren (fuel : Nat) (l : List Element) (cfg : Config) :
    Option (List (String × JVal)) :=
  match l with
  | [] => some []
  | c :: cs =>
      match fuelConvert fuel c cfg, fuelChildren fuel cs cfg with
      | some v, some rest => some ((clean_tag cfg.strip_namespaces c.tag, v) :: rest)
      | _, _ => none
termination_by (fuel, l.length + 1)

end

mutual

/-- Fuelled interpreter for the per-element effect of
`preprocess_xml_tree`, for the termination claim. -/
def fuelNorm (fuel : Nat) (e : Element) : Option Element :=
  match fuel, e with
  | 0, _ => none
  | Nat.succ f, .mk t a x cs =>
      match fuelNormList f cs with
      | none => none
      | some cs2 => some (.mk (strip_name t) (normAttrib a) x cs2)
termination_by (fuel, 0)

def fuelNormList (fuel : Nat) (l : List Element) : Option (List Element) :=
  match l with
  | [] => some []
  | c :: cs =>
      match fuelNorm fuel c, fuelNormList fuel cs with
      | some c2, some cs2 => some (c2 :: cs2)
      | _, _ => none
termination_by (fuel, l.length + 1)

end

/-- The shape the same-tag-promotion rule gives the value at one key:
no entry, the single value itself, or the list of all values. -/
def promote : List JVal → Option JVal
  | [] => none
  | [v] => some v
  | vs => some (JVal.list vs)

/-- Key lookup inside a converted value, when it is a mapping. -/
def lookupJ : JVal → String → Option JVal
  | JVal.obj m, k => lookupKey m k
  | _, _ => none

/-- The same element with its direct text removed. -/
def eraseText : Element → Element
  | .mk t a _ cs => .mk t a none cs

/-- Variant of `assemble` whose final returns hand back the accumulated
mapping unconditionally, with no emptiness fallback: used to show the
fallback of line 86 is dead code on the paths that reach it. -/
def assembleAlt (cfg : Config) (attrib : List (String × String)) (text : Option String)
    (pairs : List (String × JVal)) : JVal :=
  let result0 := attribResult cfg.strip_namespaces attrib
  let tc := textContent text
  match buildChildren pairs with
  | q :: qs =>
      let r1 := updateAll result0 (q :: qs)
      let r2 := if tc ≠ "" ∧ cfg.preserve_mixed_content = true then
                  setKey r1 "#text" (JVal.str tc)
                else r1
      JVal.obj r2
  | [] =>
      if tc ≠ "" then
        match result0 with
        | p :: ps => JVal.obj (setKey (p :: ps) "#text" (JVal.str tc))
        | [] => JVal.str tc
      else
        match result0 with
        | [] => emptyVal cfg
        | p :: ps => JVal.obj (p :: ps)

mutual

/-- `xml_to_dict` built on `assembleAlt` instead of `assemble`. -/
def xml_to_dict_alt (e : Element) (cfg : Config) : JVal :=
  match e with
  | .mk _ attrib text children => assembleAlt cfg attrib text (childPairsAlt children cfg)

def childPairsAlt (l : List Element) (cfg : Config) : List (String × JVal) :=
  match l with
  | [] => []
  | c :: cs =>
      (clean_tag cfg.strip_namespaces c.tag, xml_to_dict_alt c cfg) :: childPairsAlt cs cfg

end

mutual

/-- Every element and attribute name in the tree contains at most one
`'}'` separator (its local part is separator-free). -/
def namesOk : Element → Bool
  | .mk t a _ cs =>
      !hasSep (strip_name t) && a.all (fun p => !hasSep (strip_name p.1)) && namesOkList cs

def namesOkList : List Element → Bool
  | [] => true
  | c :: cs => namesOk c && namesOkList cs

end

/-- The value shapes the converter can reach: `null`, strings, mappings
over such values, and lists over such values — never `num` or `bool`. -/
inductive GoodVal : JVal → Prop where
  | null : GoodVal JVal.null
  | str (s : String) : GoodVal (JVal.str s)
  | obj (l : List (String × JVal)) (h : ∀ p ∈ l, GoodVal p.2) : GoodVal (JVal.obj l)
  | list (l : List JVal) (h : ∀ v ∈ l, GoodVal v) : GoodVal (JVal.list l)

/-- Strengthening of `GoodVal`: additionally, the elements of any list are
themselves never lists (lists arise only as mapping values under
same-tag promotion, and their items are single converted children). -/
inductive ProducedVal : JVal → Prop where
  | null : ProducedVal JVal.null
  | str (s : String) : ProducedVal (JVal.str s)
  | obj (l : List (String × JVal)) (h : ∀ p ∈ l, ProducedVal p.2) : ProducedVal (JVal.obj l)
  | list (l : List JVal) (h : ∀ v ∈ l, ProducedVal v)
      (hnl : ∀ v ∈ l, ∀ xs, v ≠ JVal.list xs) : ProducedVal (JVal.list l)

/-! ### Dictionary lemmas -/

theorem lookupKey_setKey_self {α : Type} (m : List (String × α)) (k : String) (v : α) :
    lookupKey (setKey m k v) k = some v := by
  induction m with
  | nil => simp [setKey, lookupKey]
  | cons p rest ih =>
      obtain ⟨k', v'⟩ := p
      by_cases h : k' = k
      · simp [setKey, h, lookupKey]
      · simp [setKey, h, lookupKey, ih]

theorem lookupKey_setKey_other {α : Type} (m : List (String × α)) (k k' : String) (v : α)
    (h : k' ≠ k) : lookupKey (setKey m k' v) k = lookupKey m k := by
  induction m with
  | nil => simp [setKey, lookupKey, h]
  | cons p rest ih =>
      obtain ⟨k₀, v₀⟩ := p
      by_cases h₀ : k₀ = k'
      · simp [setKey, h₀, lookupKey, h]
      · simp [setKey, h₀, lookupKey, ih]

theorem setKey_ne_nil {α : Type} (m : List (String × α)) (k : String) (v : α) :
    setKey m k v ≠ [] := by
  cases m with
  | nil => simp [setKey]
  | cons p rest =>
      obtain ⟨k', v'⟩ := p
      by_cases h : k' = k <;> simp [setKey, h]

theorem mem_setKey {α : Type} (m : List (String × α)) (k : String) (v : α)
    (p : String × α) (hp : p ∈ setKey m k v) : p ∈ m ∨ p = (k, v) := by
  induction m with
  | nil => simp [setKey] at hp; simp [hp]
  | cons q rest ih =>
      obtain ⟨k', v'⟩ := q
      by_cases h : k' = k
      · simp [setKey, h] at hp
        rcases hp with hp | hp
        · exact Or.inr hp
        · exact Or.inl (List.mem_cons_of_mem _ hp)
      · simp [setKey, h] at hp
        rcases hp with hp | hp
        · exact Or.inl (by simp [hp])
        · rcases ih hp with h' | h'
          · exact Or.inl (List.mem_cons_of_mem _ h')
          · exact Or.inr h'

theorem lookupKey_mem {α : Type} (m : List (String × α)) (k : String) (v : α)
    (h : lookupKey m k = some v) : (k, v) ∈ m := by
  induction m with
  | nil => simp [lookupKey] at h
  | cons p rest ih =>
      obtain ⟨k', v'⟩ := p
      by_cases h₀ : k' = k
      · simp [lookupKey, h₀] at h
        simp [h₀, h]
      · simp [lookupKey, h₀] at h
        exact List.mem_cons_of_mem _ (ih h)

theorem lookupKey_eq_none {α : Type} (m : List (String × α)) (k : String)
    (h : k ∉ m.map Prod.fst) : lookupKey m k = none := by
  induction m with
  | nil => simp [lookupKey]
  | cons p rest ih =>
      obtain ⟨k', v'⟩ := p
      rw [List.map_cons, List.mem_cons, not_or] at h
      simp [lookupKey, Ne.symm h.1, ih h.2]

theorem fst_setKey_of_mem {α : Type} (m : List (String × α)) (k : String) (v : α)
    (h : k ∈ m.map Prod.fst) : (setKey m k v).map Prod.fst = m.map Prod.fst := by
  induction m with
  | nil => simp at h
  | cons p rest ih =>
      obtain ⟨k', v'⟩ := p
      by_cases h₀ : k' = k
      · simp [setKey, h₀]
      · rw [List.map_cons, List.mem_cons] at h
        rcases h with h | h
        · exact absurd h.symm h₀
        · simp [setKey, h₀, ih h]

theorem fst_setKey_of_not_mem {α : Type} (m : List (String × α)) (k : String) (v : α)
    (h : k ∉ m.map Prod.fst) : (setKey m k v).map Prod.fst = m.map Prod.fst ++ [k] := by
  induction m with
  | nil => simp [setKey]
  | cons p rest ih =>
      obtain ⟨k', v'⟩ := p
      rw [List.map_cons, List.mem_cons, not_or] at h
      simp [setKey, Ne.symm h.1, ih h.2]

theorem nodup_fst_setKey {α : Type} (m : List (String × α)) (k : String) (v : α)
    (h : (m.map Prod.fst).Nodup) : ((setKey m k v).map Prod.fst).Nodup := by
  by_cases hk : k ∈ m.map Prod.fst
  · rw [fst_setKey_of_mem m k v hk]; exact h
  · rw [fst_setKey_of_not_mem m k v hk]
    simp [List.nodup_append, h, hk]

theorem lookupKey_updateAll_not_mem {α : Type} (m2 m : List (String × α)) (k : String)
    (h : k ∉ m2.map Prod.fst) : lookupKey (updateAll m m2) k = lookupKey m k := by
  induction m2 generalizing m with
  | nil => simp [updateAll]
  | cons p rest ih =>
      obtain ⟨k', v'⟩ := p
      rw [List.map_cons, List.mem_cons, not_or] at h
      have : updateAll m ((k', v') :: rest) = updateAll (setKey m k' v') rest := by
        simp [updateAll]
      rw [this, ih (setKey m k' v') h.2, lookupKey_setKey_other _ _ _ _ (Ne.symm h.1)]

theorem lookupKey_updateAll_of_lookup {α : Type} (m2 m : List (String × α)) (k : String)
    (v : α) (hnd : (m2.map Prod.fst).Nodup) (h : lookupKey m2 k = some v) :
    lookupKey (updateAll m m2) k = some v := by
  induction m2 generalizing m with
  | nil => simp [lookupKey] at h
  | cons p rest ih =>
      obtain ⟨k', v'⟩ := p
      have hstep : updateAll m ((k', v') :: rest) = updateAll (setKey m k' v') rest := by
        simp [updateAll]
      simp at hnd
      by_cases h₀ : k' = k
      · subst h₀
        simp [lookupKey] at h
        subst h
        rw [hstep, lookupKey_updateAll_not_mem rest _ k' (by simpa using hnd.1),
          lookupKey_setKey_self]
      · simp [lookupKey, h₀] at h
        rw [hstep, ih _ hnd.2 h]

theorem mem_updateAll {α : Type} (m2 m : List (String × α)) (p : String × α)
    (hp : p ∈ updateAll m m2) : p ∈ m ∨ p ∈ m2 := by
  induction m2 generalizing m with
  | nil => simp [updateAll] at hp; simp [hp]
  | cons q rest ih =>
      obtain ⟨k', v'⟩ := q
      have hstep : updateAll m ((k', v') :: rest) = updateAll (setKey m k' v') rest := by
        simp [updateAll]
      rw [hstep] at hp
      rcases ih _ hp with h | h
      · rcases mem_setKey _ _ _ _ h with h' | h'
        · exact Or.inl h'
        · exact Or.inr (by simp [h'])
      · exact Or.inr (List.mem_cons_of_mem _ h)

theorem updateAll_ne_nil {α : Type} (m2 m : List (String × α))
    (h : m ≠ [] ∨ m2 ≠ []) : updateAll m m2 ≠ [] := by
  induction m2 generalizing m with
  | nil =>
      rcases h with h | h
      · simpa [updateAll] using h
      · exact absurd rfl h
  | cons q rest ih =>
      obtain ⟨k', v'⟩ := q
      have hstep : updateAll m ((k', v') :: rest) = updateAll (setKey m k' v') rest := by
        simp [updateAll]
      rw [hstep]
      exact ih _ (Or.inl (setKey_ne_nil _ _ _))

/-! ### Child-merging lemmas -/

theorem addChild_ne_nil (m : List (String × JVal)) (t : String) (v : JVal) :
    addChild m t v ≠ [] := by
  unfold addChild
  split
  · split <;> exact setKey_ne_nil _ _ _
  · exact setKey_ne_nil _ _ _

theorem foldl_addChild_ne_nil (pairs : List (String × JVal))
    (acc : List (String × JVal)) (h : acc ≠ []) :
    pairs.foldl (fun acc p => addChild acc p.1 p.2) acc ≠ [] := by
  induction pairs generalizing acc with
  | nil => simpa
  | cons p rest ih => exact ih _ (addChild_ne_nil _ _ _)

theorem buildChildren_ne_nil (p : String × JVal) (pairs : List (String × JVal)) :
    buildChildren (p :: pairs) ≠ [] := by
  unfold buildChildren
  rw [List.foldl_cons]
  exact foldl_addChild_ne_nil _ _ (addChild_ne_nil _ _ _)

theorem mem_fst_setKey {α : Type} (m : List (String × α)) (k0 k : String) (v : α)
    (hk : k ∈ (setKey m k0 v).map Prod.fst) : k ∈ m.map Prod.fst ∨ k = k0 := by
  rw [List.mem_map] at hk
  obtain ⟨p, hp, hpk⟩ := hk
  rcases mem_setKey _ _ _ _ hp with h | h
  · exact Or.inl (hpk ▸ List.mem_map_of_mem Prod.fst h)
  · right
    rw [h] at hpk
    exact hpk.symm

theorem fst_addChild_subset (m : List (String × JVal)) (t : String) (v : JVal)
    (k : String) (hk : k ∈ (addChild m t v).map Prod.fst) :
    k ∈ m.map Prod.fst ∨ k = t := by
  unfold addChild at hk
  split at hk
  · split at hk <;> exact mem_fst_setKey _ _ _ _ hk
  · exact mem_fst_setKey _ _ _ _ hk

theorem fst_foldl_addChild_subset (pairs : List (String × JVal)) :
    ∀ (acc : List (String × JVal)) (k : String),
      k ∈ ((pairs.foldl (fun acc p => addChild acc p.1 p.2) acc).map Prod.fst) →
      k ∈ acc.map Prod.fst ∨ k ∈ pairs.map Prod.fst := by
  induction pairs with
  | nil => intro acc k h'; exact Or.inl h'
  | cons p rest ih =>
      intro acc k h'
      rw [List.foldl_cons] at h'
      rcases ih (addChild acc p.1 p.2) k h' with h'' | h''
      · rcases fst_addChild_subset _ _ _ _ h'' with h₃ | h₃
        · exact Or.inl h₃
        · exact Or.inr (by simp [h₃])
      · exact Or.inr (List.mem_cons_of_mem _ h'')

theorem fst_buildChildren_subset (pairs : List (String × JVal)) (k : String)
    (hk : k ∈ (buildChildren pairs).map Prod.fst) : k ∈ pairs.map Prod.fst := by
  rcases fst_foldl_addChild_subset pairs [] k hk with h' | h'
  · simp at h'
  · exact h'

theorem nodup_fst_addChild (m : List (String × JVal)) (t : String) (v : JVal)
    (h : (m.map Prod.fst).Nodup) : ((addChild m t v).map Prod.fst).Nodup := by
  unfold addChild
  split
  · split <;> exact nodup_fst_setKey _ _ _ h
  · exact nodup_fst_setKey _ _ _ h

theorem nodup_fst_foldl_addChild (pairs : List (String × JVal)) :
    ∀ acc : List (String × JVal), (acc.map Prod.fst).Nodup →
      ((pairs.foldl (fun acc p => addChild acc p.1 p.2) acc).map Prod.fst).Nodup := by
  induction pairs with
  | nil => intro acc h'; exact h'
  | cons p rest ih =>
      intro acc h'
      rw [List.foldl_cons]
      exact ih _ (nodup_fst_addChild _ _ _ h')

theorem nodup_fst_buildChildren (pairs : List (String × JVal)) :
    ((buildChildren pairs).map Prod.fst).Nodup :=
  nodup_fst_foldl_addChild pairs [] (by simp)

theorem lookupKey_addChild_other (m : List (String × JVal)) (t : String) (v : JVal)
    (T : String) (h : t ≠ T) : lookupKey (addChild m t v) T = lookupKey m T := by
  unfold addChild
  split
  · split <;> exact lookupKey_setKey_other _ _ _ _ h
  · exact lookupKey_setKey_other _ _ _ _ h

theorem mem_snd_filter_map (ps : List (String × JVal)) (f : String × JVal → Bool)
    (w : JVal) (hw : w ∈ (ps.filter f).map Prod.snd) : ∃ q ∈ ps, q.2 = w := by
  rw [List.mem_map] at hw
  obtain ⟨q, hq, hqw⟩ := hw
  exact ⟨q, (List.mem_filter.mp hq).1, hqw⟩

/-- The same-tag-promotion rule, as a statement about the finished
`children` dict: the value stored under `T` is `promote` of the values of
the `T`-tagged pairs, in document order — provided no single converted
child is itself a list (which `xml_to_dict` guarantees). -/
theorem lookupKey_buildChildren (T : String) (pairs : List (String × JVal))
    (h : ∀ p ∈ pairs, ∀ xs, p.2 ≠ JVal.list xs) :
    lookupKey (buildChildren pairs) T =
      promote ((pairs.filter (fun p => p.1 == T)).map Prod.snd) := by
  induction pairs using List.reverseRecOn with
  | nil => rfl
  | append_singleton ps p ih =>
      obtain ⟨t, v⟩ := p
      have hps : ∀ q ∈ ps, ∀ xs, q.2 ≠ JVal.list xs := fun q hq => h q (by simp [hq])
      have hv : ∀ xs, v ≠ JVal.list xs := by
        have := h (t, v) (by simp)
        simpa using this
      have hstep : buildChildren (ps ++ [(t, v)]) = addChild (buildChildren ps) t v := by
        simp [buildChildren, List.foldl_append]
      rw [hstep, List.filter_append, List.map_append]
      by_cases hT : t = T
      · subst hT
        have hfil : (List.filter (fun p => p.1 == t) [(t, v)]).map Prod.snd = [v] := by
          simp
        rw [hfil]
        rcases hvs : (ps.filter (fun p => p.1 == t)).map Prod.snd with _ | ⟨w, ws⟩
        · have hlook : lookupKey (buildChildren ps) t = none := by
            rw [ih hps, hvs]; rfl
          unfold addChild
          rw [hlook, hvs]
          simp [promote, lookupKey_setKey_self]
        · rcases ws with _ | ⟨w2, ws2⟩
          · have hlook : lookupKey (buildChildren ps) t = some w := by
              rw [ih hps, hvs]; rfl
            have hwnl : ∀ xs, w ≠ JVal.list xs := by
              have hmem : ∃ q ∈ ps, q.2 = w := by
                apply mem_snd_filter_map
                rw [hvs]; simp
              obtain ⟨q, hq, hqw⟩ := hmem
              exact hqw ▸ hps q hq
            unfold addChild
            rw [hlook, hvs]
            cases w with
            | list xs => exact absurd rfl (hwnl xs)
            | null => simp [promote, lookupKey_setKey_self]
            | bool b => simp [promote, lookupKey_setKey_self]
            | num n => simp [promote, lookupKey_setKey_self]
            | str s => simp [promote, lookupKey_setKey_self]
            | obj l => simp [promote, lookupKey_setKey_self]
          · have hlook : lookupKey (buildChildren ps) t =
                some (JVal.list (w :: w2 :: ws2)) := by
              rw [ih hps, hvs]; rfl
            unfold addChild
            rw [hlook, hvs]
            simp [promote, lookupKey_setKey_self]
      · have hfil : (List.filter (fun p => p.1 == T) [(t, v)]).map Prod.snd = [] := by
          simp [hT]
        rw [hfil, List.append_nil, lookupKey_addChild_other _ _ _ _ hT, ih hps]

/-! ### Branch equations for `addChild` and `assemble` -/

theorem addChild_of_lookup_none (m : List (String × JVal)) (t : String) (v : JVal)
    (hL : lookupKey m t = none) : addChild m t v = setKey m t v := by
  unfold addChild
  rw [hL]

theorem addChild_of_lookup_list (m : List (String × JVal)) (t : String) (v : JVal)
    (xs : List JVal) (hL : lookupKey m t = some (JVal.list xs)) :
    addChild m t v = setKey m t (JVal.list (xs ++ [v])) := by
  unfold addChild
  rw [hL]

theorem addChild_of_lookup_not_list (m : List (String × JVal)) (t : String) (v : JVal)
    (old : JVal) (hL : lookupKey m t = some old) (hnl : ∀ xs, old ≠ JVal.list xs) :
    addChild m t v = setKey m t (JVal.list [old, v]) := by
  unfold addChild
  rw [hL]
  cases old with
  | list xs => exact absurd rfl (hnl xs)
  | null => rfl
  | bool b => rfl
  | num n => rfl
  | str s => rfl
  | obj l => rfl

theorem assemble_children_case (cfg : Config) (a : List (String × String))
    (x : Option String) (pairs : List (String × JVal)) (q : String × JVal)
    (qs : List (String × JVal)) (hbc : buildChildren pairs = q :: qs) :
    assemble cfg a x pairs = finalReturn cfg
      (if textContent x ≠ "" ∧ cfg.preserve_mixed_content = true then
        setKey (updateAll (attribResult cfg.strip_namespaces a) (q :: qs)) "#text"
          (JVal.str (textContent x))
      else updateAll (attribResult cfg.strip_namespaces a) (q :: qs)) := by
  simp only [assemble]
  rw [hbc]

theorem assemble_nochildren_case (cfg : Config) (a : List (String × String))
    (x : Option String) (pairs : List (String × JVal)) (hbc : buildChildren pairs = []) :
    assemble cfg a x pairs =
      (if textContent x ≠ "" then
        match attribResult cfg.strip_namespaces a with
        | p :: ps => finalReturn cfg (setKey (p :: ps) "#text" (JVal.str (textContent x)))
        | [] => JVal.str (textContent x)
      else
        match attribResult cfg.strip_namespaces a with
        | [] => emptyVal cfg
        | p :: ps => finalReturn cfg (p :: ps)) := by
  simp only [assemble]
  rw [hbc]

theorem finalReturn_of_ne_nil (cfg : Config) (r : List (String × JVal)) (h : r ≠ []) :
    finalReturn cfg r = JVal.obj r := by
  cases r with
  | nil => exact absurd rfl h
  | cons p ps => rfl

/-! ### Shape of the converter output -/

theorem emptyVal_shape (cfg : Config) :
    emptyVal cfg = JVal.null ∨ emptyVal cfg = JVal.obj [] := by
  unfold emptyVal
  split
  · exact Or.inl rfl
  · exact Or.inr rfl

theorem finalReturn_shape (cfg : Config) (r : List (String × JVal)) :
    finalReturn cfg r = JVal.null ∨ ∃ l, finalReturn cfg r = JVal.obj l := by
  cases r with
  | nil =>
      rcases emptyVal_shape cfg with h | h
      · exact Or.inl (by rw [finalReturn, h])
      · exact Or.inr ⟨[], by rw [finalReturn, h]⟩
  | cons p ps => exact Or.inr ⟨p :: ps, rfl⟩

theorem assemble_shape (cfg : Config) (a : List (String × String)) (x : Option String)
    (pairs : List (String × JVal)) :
    assemble cfg a x pairs = JVal.null ∨ (∃ s, assemble cfg a x pairs = JVal.str s) ∨
      (∃ r, assemble cfg a x pairs = JVal.obj r) := by
  cases hbc : buildChildren pairs with
  | cons q qs =>
      rw [assemble_children_case cfg a x pairs q qs hbc]
      rcases finalReturn_shape cfg _ with h | ⟨l, h⟩
      · exact Or.inl h
      · exact Or.inr (Or.inr ⟨l, h⟩)
  | nil =>
      rw [assemble_nochildren_case cfg a x pairs hbc]
      split
      · cases attribResult cfg.strip_namespaces a with
        | nil => exact Or.inr (Or.inl ⟨textContent x, rfl⟩)
        | cons p ps =>
            rcases finalReturn_shape cfg (setKey (p :: ps) "#text" (JVal.str (textContent x)))
              with h | ⟨l, h⟩
            · exact Or.inl h
            · exact Or.inr (Or.inr ⟨l, h⟩)
      · cases attribResult cfg.strip_namespaces a with
        | nil =>
            rcases emptyVal_shape cfg with h | h
            · exact Or.inl h
            · exact Or.inr (Or.inr ⟨[], h⟩)
        | cons p ps =>
            rcases finalReturn_shape cfg (p :: ps) with h | ⟨l, h⟩
            · exact Or.inl h
            · exact Or.inr (Or.inr ⟨l, h⟩)

theorem xml_to_dict_eq_assemble (t : String) (a : List (String × String))
    (x : Option String) (cs : List Element) (cfg : Config) :
    xml_to_dict (Element.mk t a x cs) cfg = assemble cfg a x (childPairs cs cfg) := rfl

theorem xml_to_dict_shape (e : Element) (cfg : Config) :
    xml_to_dict e cfg = JVal.null ∨ (∃ s, xml_to_dict e cfg = JVal.str s) ∨
      (∃ r, xml_to_dict e cfg = JVal.obj r) := by
  cases e with
  | mk t a x cs =>
      rw [xml_to_dict_eq_assemble]
      exact assemble_shape cfg a x (childPairs cs cfg)

theorem xml_to_dict_ne_list (e : Element) (cfg : Config) (xs : List JVal) :
    xml_to_dict e cfg ≠ JVal.list xs := by
  intro h
  rcases xml_to_dict_shape e cfg with h' | ⟨s, h'⟩ | ⟨r, h'⟩ <;>
    rw [h'] at h <;> exact JVal.noConfusion h

/-! ### Structural induction over elements -/

theorem esize_pos (e : Element) : 1 ≤ esize e := by
  cases e with
  | mk t a x cs =>
      have : esize (Element.mk t a x cs) = 1 + esizeList cs := rfl
      omega

theorem esize_le_of_mem (c : Element) (cs : List Element) (h : c ∈ cs) :
    esize c ≤ esizeList cs := by
  induction cs with
  | nil => simp at h
  | cons d ds ih =>
      have hstep : esizeList (d :: ds) = esize d + esizeList ds := rfl
      rcases List.mem_cons.mp h with h | h
      · rw [h]; omega
      · have := ih h; omega

theorem element_induction (motive : Element → Prop)
    (step : ∀ t a x cs, (∀ c ∈ cs, motive c) → motive (Element.mk t a x cs)) :
    ∀ e, motive e := by
  have key : ∀ n e, esize e ≤ n → motive e := by
    intro n
    induction n with
    | zero => intro e he; have := esize_pos e; omega
    | succ n ih =>
        intro e he
        cases e with
        | mk t a x cs =>
            apply step
            intro c hc
            apply ih
            have h1 : esize c ≤ esizeList cs := esize_le_of_mem c cs hc
            have h2 : esize (Element.mk t a x cs) = 1 + esizeList cs := rfl
            omega
  intro e
  exact key (esize e) e le_rfl

theorem childPairs_eq_map (cs : List Element) (cfg : Config) :
    childPairs cs cfg =
      cs.map (fun c => (clean_tag cfg.strip_namespaces c.tag, xml_to_dict c cfg)) := by
  induction cs with
  | nil => rfl
  | cons c cs ih => simp [childPairs, ih]

/-! ### `ProducedVal` preservation -/

theorem produced_setKey (m : List (String × JVal)) (k : String) (v : JVal)
    (hm : ∀ q ∈ m, ProducedVal q.2) (hv : ProducedVal v) :
    ∀ q ∈ setKey m k v, ProducedVal q.2 := by
  intro q hq
  rcases mem_setKey _ _ _ _ hq with h | h
  · exact hm q h
  · rw [h]; exact hv

theorem producedVal_list_mem (l : List JVal) (h : ProducedVal (JVal.list l)) :
    ∀ v ∈ l, ProducedVal v ∧ ∀ xs, v ≠ JVal.list xs := by
  cases h with
  | list _ h1 h2 => exact fun v hv => ⟨h1 v hv, h2 v hv⟩

theorem produced_pair_list (old v : JVal) (hold : ProducedVal old)
    (holdnl : ∀ xs, old ≠ JVal.list xs) (hv : ProducedVal v)
    (hvl : ∀ xs, v ≠ JVal.list xs) : ProducedVal (JVal.list [old, v]) := by
  refine ProducedVal.list _ ?_ ?_
  · intro w hw
    simp at hw
    rcases hw with h | h <;> rw [h]
    · exact hold
    · exact hv
  · intro w hw xs
    simp at hw
    rcases hw with h | h <;> rw [h]
    · exact holdnl xs
    · exact hvl xs

theorem produced_append_list (xs : List JVal) (v : JVal)
    (h : ProducedVal (JVal.list xs)) (hv : ProducedVal v)
    (hvl : ∀ ys, v ≠ JVal.list ys) : ProducedVal (JVal.list (xs ++ [v])) := by
  have hx := producedVal_list_mem xs h
  refine ProducedVal.list _ ?_ ?_
  · intro w hw
    rcases List.mem_append.mp hw with h' | h'
    · exact (hx w h').1
    · simp at h'; rw [h']; exact hv
  · intro w hw ys
    rcases List.mem_append.mp hw with h' | h'
    · exact (hx w h').2 ys
    · simp at h'; rw [h']; exact hvl ys

theorem produced_addChild (m : List (String × JVal)) (t : String) (v : JVal)
    (hm : ∀ q ∈ m, ProducedVal q.2) (hv : ProducedVal v)
    (hvl : ∀ xs, v ≠ JVal.list xs) : ∀ q ∈ addChild m t v, ProducedVal q.2 := by
  rcases hL : lookupKey m t with _ | old
  · rw [addChild_of_lookup_none _ _ _ hL]
    exact produced_setKey _ _ _ hm hv
  · have hold : ProducedVal old := hm _ (lookupKey_mem _ _ _ hL)
    by_cases hli : ∃ xs, old = JVal.list xs
    · obtain ⟨xs, rfl⟩ := hli
      rw [addChild_of_lookup_list _ _ _ _ hL]
      exact produced_setKey _ _ _ hm (produced_append_list xs v hold hv hvl)
    · push_neg at hli
      rw [addChild_of_lookup_not_list _ _ _ _ hL hli]
      exact produced_setKey _ _ _ hm (produced_pair_list _ _ hold hli hv hvl)

theorem produced_foldl_addChild (pairs : List (String × JVal)) :
    ∀ acc : List (String × JVal), (∀ q ∈ acc, ProducedVal q.2) →
      (∀ p ∈ pairs, ProducedVal p.2) → (∀ p ∈ pairs, ∀ xs, p.2 ≠ JVal.list xs) →
      ∀ q ∈ pairs.foldl (fun acc p => addChild acc p.1 p.2) acc, ProducedVal q.2 := by
  induction pairs with
  | nil => intro acc hacc _ _; simpa using hacc
  | cons p rest ih =>
      intro acc hacc hp hnl
      rw [List.foldl_cons]
      exact ih _ (produced_addChild _ _ _ hacc (hp p (by simp)) (hnl p (by simp)))
        (fun q hq => hp q (by simp [hq])) (fun q hq => hnl q (by simp [hq]))

theorem produced_buildChildren (pairs : List (String × JVal))
    (hp : ∀ p ∈ pairs, ProducedVal p.2) (hnl : ∀ p ∈ pairs, ∀ xs, p.2 ≠ JVal.list xs) :
    ∀ q ∈ buildChildren pairs, ProducedVal q.2 :=
  produced_foldl_addChild pairs [] (by simp) hp hnl

theorem produced_foldl_attrib (strip : Bool) (a : List (String × String)) :
    ∀ acc : List (String × JVal), (∀ q ∈ acc, ProducedVal q.2) →
      ∀ q ∈ a.foldl (fun acc p =>
        setKey acc ("@" ++ clean_tag strip p.1) (JVal.str p.2)) acc, ProducedVal q.2 := by
  induction a with
  | nil => intro acc hacc q hq; exact hacc q hq
  | cons p rest ih =>
      intro acc hacc q hq
      rw [List.foldl_cons] at hq
      exact ih _ (produced_setKey _ _ _ hacc (ProducedVal.str _)) q hq

theorem produced_attribResult (strip : Bool) (a : List (String × String)) :
    ∀ q ∈ attribResult strip a, ProducedVal q.2 :=
  produced_foldl_attrib strip a [] (by simp)

theorem produced_updateAll (m m2 : List (String × JVal))
    (hm : ∀ q ∈ m, ProducedVal q.2) (hm2 : ∀ q ∈ m2, ProducedVal q.2) :
    ∀ q ∈ updateAll m m2, ProducedVal q.2 := by
  intro q hq
  rcases mem_updateAll _ _ _ hq with h | h
  · exact hm q h
  · exact hm2 q h

theorem produced_finalReturn (cfg : Config) (r : List (String × JVal))
    (hr : ∀ q ∈ r, ProducedVal q.2) : ProducedVal (finalReturn cfg r) := by
  cases r with
  | nil =>
      rcases emptyVal_shape cfg with h | h
      · rw [finalReturn, h]; exact ProducedVal.null
      · rw [finalReturn, h]; exact ProducedVal.obj _ (by simp)
  | cons p ps => exact ProducedVal.obj _ hr

theorem produced_emptyVal (cfg : Config) : ProducedVal (emptyVal cfg) := by
  rcases emptyVal_shape cfg with h | h <;> rw [h]
  · exact ProducedVal.null
  · exact ProducedVal.obj _ (by simp)

theorem assemble_produced (cfg : Config) (a : List (String × String))
    (x : Option String) (pairs : List (String × JVal))
    (hp : ∀ p ∈ pairs, ProducedVal p.2)
    (hnl : ∀ p ∈ pairs, ∀ xs, p.2 ≠ JVal.list xs) :
    ProducedVal (assemble cfg a x pairs) := by
  have hattr := produced_attribResult cfg.strip_namespaces a
  cases hbc : buildChildren pairs with
  | cons q qs =>
      rw [assemble_children_case cfg a x pairs q qs hbc]
      apply produced_finalReturn
      have hch : ∀ r ∈ q :: qs, ProducedVal r.2 := by
        rw [← hbc]; exact produced_buildChildren pairs hp hnl
      have hupd : ∀ r ∈ updateAll (attribResult cfg.strip_namespaces a) (q :: qs),
          ProducedVal r.2 := produced_updateAll _ _ hattr hch
      intro r hr
      split at hr
      · rcases mem_setKey _ _ _ _ hr with h | h
        · exact hupd r h
        · rw [h]; exact ProducedVal.str _
      · exact hupd r hr
  | nil =>
      rw [assemble_nochildren_case cfg a x pairs hbc]
      split
      · cases hat : attribResult cfg.strip_namespaces a with
        | nil => exact ProducedVal.str _
        | cons p ps =>
            apply produced_finalReturn
            intro r hr
            rcases mem_setKey _ _ _ _ hr with h | h
            · exact hattr r (hat ▸ h)
            · rw [h]; exact ProducedVal.str _
      · cases hat : attribResult cfg.strip_namespaces a with
        | nil => exact produced_emptyVal cfg
        | cons p ps =>
            apply produced_finalReturn
            intro r hr
            exact hattr r (hat ▸ hr)

theorem xml_to_dict_produced (cfg : Config) : ∀ e, ProducedVal (xml_to_dict e cfg) := by
  intro e
  induction e using element_induction with
  | step t a x cs ih =>
      rw [xml_to_dict_eq_assemble]
      apply assemble_produced
      · intro p hp
        rw [childPairs_eq_map, List.mem_map] at hp
        obtain ⟨c, hc, rfl⟩ := hp
        exact ih c hc
      · intro p hp xs
        rw [childPairs_eq_map, List.mem_map] at hp
        obtain ⟨c, hc, rfl⟩ := hp
        exact xml_to_dict_ne_list c cfg xs

theorem goodVal_of_produced (v : JVal) (h : ProducedVal v) : GoodVal v := by
  induction h with
  | null => exact GoodVal.null
  | str s => exact GoodVal.str s
  | obj l h ih => exact GoodVal.obj l ih
  | list l h hnl ih => exact GoodVal.list l ih

/-! ### The final-return fallback is dead code -/

theorem assembleAlt_children_case (cfg : Config) (a : List (String × String))
    (x : Option String) (pairs : List (String × JVal)) (q : String × JVal)
    (qs : List (String × JVal)) (hbc : buildChildren pairs = q :: qs) :
    assembleAlt cfg a x pairs = JVal.obj
      (if textContent x ≠ "" ∧ cfg.preserve_mixed_content = true then
        setKey (updateAll (attribResult cfg.strip_namespaces a) (q :: qs)) "#text"
          (JVal.str (textContent x))
      else updateAll (attribResult cfg.strip_namespaces a) (q :: qs)) := by
  simp only [assembleAlt]
  rw [hbc]

theorem assembleAlt_nochildren_case (cfg : Config) (a : List (String × String))
    (x : Option String) (pairs : List (String × JVal)) (hbc : buildChildren pairs = []) :
    assembleAlt cfg a x pairs =
      (if textContent x ≠ "" then
        match attribResult cfg.strip_namespaces a with
        | p :: ps => JVal.obj (setKey (p :: ps) "#text" (JVal.str (textContent x)))
        | [] => JVal.str (textContent x)
      else
        match attribResult cfg.strip_namespaces a with
        | [] => emptyVal cfg
        | p :: ps => JVal.obj (p :: ps)) := by
  simp only [assembleAlt]
  rw [hbc]

theorem assembleAlt_eq (cfg : Config) (a : List (String × String)) (x : Option String)
    (pairs : List (String × JVal)) :
    assembleAlt cfg a x pairs = assemble cfg a x pairs := by
  cases hbc : buildChildren pairs with
  | cons q qs =>
      rw [assembleAlt_children_case cfg a x pairs q qs hbc,
        assemble_children_case cfg a x pairs q qs hbc]
      have hne : (if textContent x ≠ "" ∧ cfg.preserve_mixed_content = true then
          setKey (updateAll (attribResult cfg.strip_namespaces a) (q :: qs)) "#text"
            (JVal.str (textContent x))
        else updateAll (attribResult cfg.strip_namespaces a) (q :: qs)) ≠ [] := by
        split
        · exact setKey_ne_nil _ _ _
        · exact updateAll_ne_nil _ _ (Or.inr (by simp))
      rw [finalReturn_of_ne_nil _ _ hne]
  | nil =>
      rw [assembleAlt_nochildren_case cfg a x pairs hbc,
        assemble_nochildren_case cfg a x pairs hbc]
      split
      · cases hat : attribResult cfg.strip_namespaces a with
        | nil => rfl
        | cons p ps =>
            dsimp only
            rw [finalReturn_of_ne_nil _ _ (setKey_ne_nil _ _ _)]
      · cases hat : attribResult cfg.strip_namespaces a with
        | nil => rfl
        | cons p ps =>
            dsimp only
            rw [finalReturn_of_ne_nil _ _ (by simp)]

theorem childPairsAlt_congr (cs : List Element) (cfg : Config)
    (ih : ∀ c ∈ cs, xml_to_dict_alt c cfg = xml_to_dict c cfg) :
    childPairsAlt cs cfg = childPairs cs cfg := by
  induction cs with
  | nil => rfl
  | cons c cs ihl =>
      simp only [childPairsAlt, childPairs]
      rw [ih c (by simp), ihl (fun d hd => ih d (by simp [hd]))]

theorem xml_to_dict_alt_eq (cfg : Config) : ∀ e, xml_to_dict_alt e cfg = xml_to_dict e cfg := by
  intro e
  induction e using element_induction with
  | step t a x cs ih =>
      show assembleAlt cfg a x (childPairsAlt cs cfg) = assemble cfg a x (childPairs cs cfg)
      rw [childPairsAlt_congr cs cfg ih, assembleAlt_eq]

/-! ### Congruence: the output depends only on attributes, trimmed text,
and the children's tag/value pairs -/

theorem assemble_text_congr (cfg : Config) (a : List (String × String))
    (pairs : List (String × JVal)) (x₁ x₂ : Option String)
    (h : textContent x₁ = textContent x₂) :
    assemble cfg a x₁ pairs = assemble cfg a x₂ pairs := by
  simp only [assemble, h]

/-! ### Attribute keys all start with the `"@"` marker -/

theorem fst_foldl_attrib_at (strip : Bool) (a : List (String × String)) :
    ∀ acc : List (String × JVal), (∀ k ∈ acc.map Prod.fst, ∃ s, k = "@" ++ s) →
      ∀ k ∈ ((a.foldl (fun acc p =>
        setKey acc ("@" ++ clean_tag strip p.1) (JVal.str p.2)) acc).map Prod.fst),
        ∃ s, k = "@" ++ s := by
  induction a with
  | nil => intro acc hacc k hk; exact hacc k hk
  | cons p rest ih =>
      intro acc hacc k hk
      rw [List.foldl_cons] at hk
      refine ih _ ?_ k hk
      intro k' hk'
      rcases mem_fst_setKey _ _ _ _ hk' with h | h
      · exact hacc k' h
      · exact ⟨clean_tag strip p.1, h⟩

theorem fst_attribResult (strip : Bool) (a : List (String × String)) (k : String)
    (hk : k ∈ (attribResult strip a).map Prod.fst) : ∃ s, k = "@" ++ s :=
  fst_foldl_attrib_at strip a [] (by simp) k hk

theorem at_key_ne_hash (s : String) : "@" ++ s ≠ "#text" := by
  intro h
  have h2 : ("@" ++ s).data = "#text".data := congrArg String.data h
  rw [String.data_append] at h2
  have ha : ("@" : String).data = ['@'] := rfl
  have hb : ("#text" : String).data = ['#', 't', 'e', 'x', 't'] := rfl
  rw [ha, hb] at h2
  injection h2 with h3 h4
  exact absurd h3 (by decide)

theorem fst_updateAll_subset {α : Type} (m m2 : List (String × α)) (k : String)
    (hk : k ∈ (updateAll m m2).map Prod.fst) :
    k ∈ m.map Prod.fst ∨ k ∈ m2.map Prod.fst := by
  rw [List.mem_map] at hk
  obtain ⟨p, hp, hpk⟩ := hk
  rcases mem_updateAll _ _ _ hp with h | h
  · exact Or.inl (hpk ▸ List.mem_map_of_mem Prod.fst h)
  · exact Or.inr (hpk ▸ List.mem_map_of_mem Prod.fst h)

/-! ### Namespace-normalizer lemmas -/

theorem strip_name_of_no_sep (s : String) (h : hasSep s = false) : strip_name s = s := by
  simp [strip_name, h]

theorem setKey_append_of_not_mem {α : Type} (m : List (String × α)) (k : String) (v : α)
    (h : k ∉ m.map Prod.fst) : setKey m k v = m ++ [(k, v)] := by
  induction m with
  | nil => rfl
  | cons p rest ih =>
      obtain ⟨k', v'⟩ := p
      rw [List.map_cons, List.mem_cons, not_or] at h
      simp [setKey, Ne.symm h.1, ih h.2]

theorem foldl_setKey_strip_inv (a : List (String × String)) :
    ∀ acc : List (String × String), (∀ q ∈ acc, hasSep q.1 = false) →
      (∀ p ∈ a, hasSep (strip_name p.1) = false) →
      ∀ q ∈ a.foldl (fun acc p => setKey acc (strip_name p.1) p.2) acc,
        hasSep q.1 = false := by
  induction a with
  | nil => intro acc hacc _ q hq; exact hacc q hq
  | cons p rest ih =>
      intro acc hacc hp q hq
      rw [List.foldl_cons] at hq
      refine ih _ ?_ (fun r hr => hp r (by simp [hr])) q hq
      intro r hr
      rcases mem_setKey _ _ _ _ hr with h' | h'
      · exact hacc r h'
      · rw [h']; exact hp p (by simp)

theorem nodup_fst_foldl_setKey {α β : Type} (l : List β) (key : β → String) (val : β → α) :
    ∀ acc : List (String × α), (acc.map Prod.fst).Nodup →
      ((l.foldl (fun acc p => setKey acc (key p) (val p)) acc).map Prod.fst).Nodup := by
  induction l with
  | nil => intro acc h; exact h
  | cons p rest ih =>
      intro acc h
      rw [List.foldl_cons]
      exact ih _ (nodup_fst_setKey _ _ _ h)

theorem nodup_fst_normAttrib (a : List (String × String)) :
    ((normAttrib a).map Prod.fst).Nodup :=
  nodup_fst_foldl_setKey a (fun p => strip_name p.1) (fun p => p.2) [] (by simp)

theorem foldl_setKey_append (l : List (String × String)) :
    ∀ acc : List (String × String), (∀ p ∈ l, strip_name p.1 = p.1) →
      ((l.map Prod.fst).Nodup) → (∀ p ∈ l, p.1 ∉ acc.map Prod.fst) →
      l.foldl (fun acc p => setKey acc (strip_name p.1) p.2) acc = acc ++ l := by
  induction l with
  | nil => intro acc _ _ _; simp
  | cons p rest ih =>
      intro acc hfix hnd hdisj
      rw [List.foldl_cons, hfix p (by simp),
        setKey_append_of_not_mem _ _ _ (hdisj p (by simp))]
      rw [List.map_cons, List.nodup_cons] at hnd
      rw [ih (acc ++ [(p.1, p.2)]) (fun q hq => hfix q (by simp [hq])) hnd.2 ?_]
      · simp
      · intro q hq
        rw [List.map_append, List.mem_append, not_or]
        constructor
        · exact hdisj q (by simp [hq])
        · simp only [List.map_cons, List.map_nil, List.mem_singleton]
          intro hq1
          exact hnd.1 (hq1 ▸ List.mem_map_of_mem Prod.fst hq)

theorem normAttrib_fixed (l : List (String × String))
    (hfix : ∀ p ∈ l, strip_name p.1 = p.1) (hnd : (l.map Prod.fst).Nodup) :
    normAttrib l = l := by
  have h := foldl_setKey_append l [] hfix hnd (by simp)
  simpa [normAttrib] using h

theorem normAttrib_idem (a : List (String × String))
    (h : ∀ p ∈ a, hasSep (strip_name p.1) = false) :
    normAttrib (normAttrib a) = normAttrib a := by
  apply normAttrib_fixed
  · intro p hp
    have hns : hasSep p.1 = false := foldl_setKey_strip_inv a [] (by simp) h p hp
    exact strip_name_of_no_sep _ hns
  · exact nodup_fst_normAttrib a

theorem namesOkList_mem (cs : List Element) (h : namesOkList cs = true) :
    ∀ c ∈ cs, namesOk c = true := by
  induction cs with
  | nil => simp
  | cons c cs ih =>
      rw [show namesOkList (c :: cs) = (namesOk c && namesOkList cs) from rfl,
        Bool.and_eq_true] at h
      intro d hd
      rcases List.mem_cons.mp hd with h' | h'
      · rw [h']; exact h.1
      · exact ih h.2 d h'

theorem preprocess_list_eq_map (cs : List Element) :
    preprocess_list cs = cs.map preprocess_elem := by
  induction cs with
  | nil => rfl
  | cons c cs ih => simp [preprocess_list, ih]

/-! ### Termination: the fuelled interpreters never run out of fuel on a
finite tree -/

theorem fuelChildren_complete_of (f : Nat)
    (hP : ∀ e cfg, esize e ≤ f → fuelConvert f e cfg = some (xml_to_dict e cfg)) :
    ∀ (cs : List Element) (cfg : Config), esizeList cs ≤ f →
      fuelChildren f cs cfg = some (childPairs cs cfg) := by
  intro cs
  induction cs with
  | nil => intro cfg h; simp [fuelChildren, childPairs]
  | cons c cs ih =>
      intro cfg h
      have hsz : esizeList (c :: cs) = esize c + esizeList cs := rfl
      have h1 : esize c ≤ f := by omega
      have h2 : esizeList cs ≤ f := by omega
      simp [fuelChildren, hP c cfg h1, ih cfg h2, childPairs]

theorem fuelConvert_complete : ∀ (f : Nat) (e : Element) (cfg : Config),
    esize e ≤ f → fuelConvert f e cfg = some (xml_to_dict e cfg) := by
  intro f
  induction f with
  | zero => intro e cfg h; have := esize_pos e; omega
  | succ f ih =>
      intro e cfg h
      cases e with
      | mk t a x cs =>
          have hsz : esize (Element.mk t a x cs) = 1 + esizeList cs := rfl
          have hcs : esizeList cs ≤ f := by omega
          simp [fuelConvert, fuelChildren_complete_of f ih cs cfg hcs,
            xml_to_dict_eq_assemble]

theorem fuelNormList_complete_of (f : Nat)
    (hP : ∀ e, esize e ≤ f → fuelNorm f e = some (preprocess_elem e)) :
    ∀ cs : List Element, esizeList cs ≤ f →
      fuelNormList f cs = some (preprocess_list cs) := by
  intro cs
  induction cs with
  | nil => intro h; simp [fuelNormList, preprocess_list]
  | cons c cs ih =>
      intro h
      have hsz : esizeList (c :: cs) = esize c + esizeList cs := rfl
      have h1 : esize c ≤ f := by omega
      have h2 : esizeList cs ≤ f := by omega
      simp [fuelNormList, hP c h1, ih h2, preprocess_list]

theorem fuelNorm_complete : ∀ (f : Nat) (e : Element),
    esize e ≤ f → fuelNorm f e = some (preprocess_elem e) := by
  intro f
  induction f with
  | zero => intro e h; have := esize_pos e; omega
  | succ f ih =>
      intro e h
      cases e with
      | mk t a x cs =>
          have hsz : esize (Element.mk t a x cs) = 1 + esizeList cs := rfl
          have hcs : esizeList cs ≤ f := by omega
          simp [fuelNorm, fuelNormList_complete_of f ih cs hcs, preprocess_elem]

/-! ### Same-tag promotion at the converter level -/

theorem buildChildren_cons_of_ne_nil (pairs : List (String × JVal)) (h : pairs ≠ []) :
    ∃ q qs, buildChildren pairs = q :: qs := by
  cases hp : pairs with
  | nil => exact absurd hp h
  | cons p ps =>
      cases hb : buildChildren (p :: ps) with
      | nil => exact absurd hb (buildChildren_ne_nil p ps)
      | cons q qs => exact ⟨q, qs, rfl⟩

/-- The value the converter stores under key `T` is `promote` of the
converted `T`-tagged children, in document order — provided the `"#text"`
insertion cannot overwrite it. -/
theorem lookupJ_conv_promote (t : String) (a : List (String × String))
    (x : Option String) (cs : List Element) (cfg : Config) (T : String)
    (hres : T ≠ "#text" ∨ textContent x = "" ∨ cfg.preserve_mixed_content = false)
    (hne : cs.filter (fun c => clean_tag cfg.strip_namespaces c.tag == T) ≠ []) :
    lookupJ (xml_to_dict (Element.mk t a x cs) cfg) T =
      promote ((cs.filter (fun c => clean_tag cfg.strip_namespaces c.tag == T)).map
        (fun c => xml_to_dict c cfg)) := by
  have hfm : ((childPairs cs cfg).filter (fun p => p.1 == T)).map Prod.snd =
      (cs.filter (fun c => clean_tag cfg.strip_namespaces c.tag == T)).map
        (fun c => xml_to_dict c cfg) := by
    rw [childPairs_eq_map, List.filter_map, List.map_map]
    rfl
  have hnl : ∀ p ∈ childPairs cs cfg, ∀ xs, p.2 ≠ JVal.list xs := by
    intro p hp xs
    rw [childPairs_eq_map, List.mem_map] at hp
    obtain ⟨c, hc, rfl⟩ := hp
    exact xml_to_dict_ne_list c cfg xs
  have hlook : lookupKey (buildChildren (childPairs cs cfg)) T =
      promote ((cs.filter (fun c => clean_tag cfg.strip_namespaces c.tag == T)).map
        (fun c => xml_to_dict c cfg)) := by
    rw [lookupKey_buildChildren T _ hnl, hfm]
  have hpne : childPairs cs cfg ≠ [] := by
    rw [childPairs_eq_map]
    intro h0
    rw [List.map_eq_nil_iff] at h0
    rw [h0] at hne
    simp at hne
  obtain ⟨q, qs, hbc⟩ := buildChildren_cons_of_ne_nil _ hpne
  obtain ⟨w, hw⟩ : ∃ w, promote ((cs.filter
      (fun c => clean_tag cfg.strip_namespaces c.tag == T)).map
        (fun c => xml_to_dict c cfg)) = some w := by
    rcases hv : (cs.filter (fun c => clean_tag cfg.strip_namespaces c.tag == T)).map
        (fun c => xml_to_dict c cfg) with _ | ⟨v1, _ | ⟨v2, vr⟩⟩
    · rw [List.map_eq_nil_iff] at hv
      exact absurd hv hne
    · exact ⟨v1, by rw [hv]; rfl⟩
    · exact ⟨JVal.list (v1 :: v2 :: vr), by rw [hv]; rfl⟩
  have hupd : lookupKey (updateAll (attribResult cfg.strip_namespaces a) (q :: qs)) T =
      some w := by
    rw [← hbc]
    exact lookupKey_updateAll_of_lookup _ _ _ _ (nodup_fst_buildChildren _)
      (hlook.trans hw)
  rw [xml_to_dict_eq_assemble, assemble_children_case cfg a x _ q qs hbc]
  by_cases hif : textContent x ≠ "" ∧ cfg.preserve_mixed_content = true
  · have hTne : T ≠ "#text" := by
      rcases hres with h | h | h
      · exact h
      · exact absurd h hif.1
      · exact absurd hif.2 (by simp [h])
    rw [if_pos hif, finalReturn_of_ne_nil _ _ (setKey_ne_nil _ _ _)]
    simp only [lookupJ]
    rw [lookupKey_setKey_other _ _ _ _ (Ne.symm hTne), hupd]
    exact hw.symm
  · rw [if_neg hif, finalReturn_of_ne_nil _ _
      (updateAll_ne_nil _ _ (Or.inr (by simp)))]
    simp only [lookupJ]
    rw [hupd]
    exact hw.symm

/-! ### The claims -/

/-- C1 (amended): for every element and tag `T` among its (cleaned) child
tags, as long as the reserved `"#text"` insertion cannot overwrite key `T`
(`T ≠ "#text"`, or the trimmed text is empty, or mixed content is off):
with exactly one `T`-tagged child its converted value is stored directly,
never as a one-element list; with two or more, the stored value is the
list of all `T`-tagged children's values in document order. -/
theorem same_tag_promotion (e : Element) (cfg : Config) (T : String)
    (hres : T ≠ "#text" ∨ textContent e.text = "" ∨
      cfg.preserve_mixed_content = false) :
    (∀ c, e.children.filter (fun c => clean_tag cfg.strip_namespaces c.tag == T) = [c] →
      lookupJ (xml_to_dict e cfg) T = some (xml_to_dict c cfg)) ∧
    (2 ≤ (e.children.filter (fun c => clean_tag cfg.strip_namespaces c.tag == T)).length →
      lookupJ (xml_to_dict e cfg) T =
        some (JVal.list ((e.children.filter
          (fun c => clean_tag cfg.strip_namespaces c.tag == T)).map
            (fun c => xml_to_dict c cfg)))) := by
  cases e with
  | mk t a x cs =>
      simp only [Element.children]
      simp only [Element.text] at hres
      constructor
      · intro c hc
        have h := lookupJ_conv_promote t a x cs cfg T hres (by rw [hc]; simp)
        rw [hc] at h
        exact h
      · intro hlen
        have hne : cs.filter (fun c => clean_tag cfg.strip_namespaces c.tag == T) ≠ [] := by
          intro h0
          rw [h0] at hlen
          simp at hlen
        have h := lookupJ_conv_promote t a x cs cfg T hres hne
        rw [h]
        have hlen2 : 2 ≤ ((cs.filter (fun c => clean_tag cfg.strip_namespaces c.tag == T)).map
            (fun c => xml_to_dict c cfg)).length := by
          rw [List.length_map]
          exact hlen
        rcases hv : (cs.filter (fun c => clean_tag cfg.strip_namespaces c.tag == T)).map
            (fun c => xml_to_dict c cfg) with _ | ⟨v1, _ | ⟨v2, vr⟩⟩
        · rw [hv] at hlen2; simp at hlen2
        · rw [hv] at hlen2; simp at hlen2
        · rw [hv]; rfl

/-- C1 counterexample: with two children literally tagged `#text`, mixed
text `"t"`, and mixed-content preservation on (the default), the final
`result['#text'] = text_content` assignment overwrites the promoted list,
so the value at the key is the string, not the length-2 list the claim
demands. -/
theorem same_tag_promotion_cex :
    lookupJ (xml_to_dict (Element.mk "a" [] (some "t")
        [Element.mk "#text" [] none [], Element.mk "#text" [] none []]) defaultConfig)
      "#text" = some (JVal.str "t") ∧
    lookupJ (xml_to_dict (Element.mk "a" [] (some "t")
        [Element.mk "#text" [] none [], Element.mk "#text" [] none []]) defaultConfig)
      "#text" ≠ some (JVal.list [JVal.obj [], JVal.obj []]) :=
  ⟨rfl, fun h => JVal.noConfusion (Option.some.inj h)⟩

/-- C1 witness: scenario C, `<a id="1"><b>x</b><b>y</b></a>`. -/
theorem same_tag_promotion_witness :
    lookupJ (xml_to_dict (Element.mk "a" [("id", "1")] none
        [Element.mk "b" [] (some "x") [], Element.mk "b" [] (some "y") []]) defaultConfig)
      "b" = some (JVal.list [JVal.str "x", JVal.str "y"]) :=
  (same_tag_promotion (Element.mk "a" [("id", "1")] none
      [Element.mk "b" [] (some "x") [], Element.mk "b" [] (some "y") []])
    defaultConfig "b" (Or.inl (by decide))).2 (by decide)

/-- C2: an element with no attributes, no children, and non-blank trimmed
text converts to the bare trimmed string, for every configuration. -/
theorem scalar_collapse (e : Element) (cfg : Config) (hA : e.attrib = [])
    (hC : e.children = []) (hT : textContent e.text ≠ "") :
    xml_to_dict e cfg = JVal.str (textContent e.text) := by
  cases e with
  | mk t a x cs =>
      simp only [Element.attrib] at hA
      simp only [Element.children] at hC
      simp only [Element.text] at hT ⊢
      subst hA
      subst hC
      rw [xml_to_dict_eq_assemble,
        assemble_nochildren_case cfg [] x (childPairs [] cfg) rfl, if_pos hT]
      rfl

/-- C2 witness: scenario B, `<a>hi</a>`. -/
theorem scalar_collapse_witness :
    xml_to_dict (Element.mk "a" [] (some "hi") []) defaultConfig = JVal.str "hi" :=
  scalar_collapse (Element.mk "a" [] (some "hi") []) defaultConfig rfl rfl (by decide)

/-- C3 (amended): for an element with children and non-blank trimmed text,
as long as no child's cleaned tag is the reserved `"#text"`: the output
carries `"#text" ↦ trimmed text` exactly when mixed-content preservation
is on; with it off the key is absent and the output equals that of the
same element with its text removed. -/
theorem mixed_content_text (e : Element) (cfg : Config)
    (hch : e.children ≠ []) (ht : textContent e.text ≠ "")
    (hnc : ∀ c ∈ e.children, clean_tag cfg.strip_namespaces c.tag ≠ "#text") :
    (cfg.preserve_mixed_content = true →
      lookupJ (xml_to_dict e cfg) "#text" = some (JVal.str (textContent e.text))) ∧
    (cfg.preserve_mixed_content = false →
      lookupJ (xml_to_dict e cfg) "#text" = none ∧
      xml_to_dict e cfg = xml_to_dict (eraseText e) cfg) := by
  cases e with
  | mk t a x cs =>
      simp only [Element.children] at hch hnc
      simp only [Element.text] at ht ⊢
      have hpne : childPairs cs cfg ≠ [] := by
        rw [childPairs_eq_map]
        intro h0
        exact hch (List.map_eq_nil_iff.mp h0)
      obtain ⟨q, qs, hbc⟩ := buildChildren_cons_of_ne_nil _ hpne
      have hr1ne : updateAll (attribResult cfg.strip_namespaces a) (q :: qs) ≠ [] :=
        updateAll_ne_nil _ _ (Or.inr (by simp))
      constructor
      · intro hpmc
        rw [xml_to_dict_eq_assemble, assemble_children_case cfg a x _ q qs hbc,
          if_pos ⟨ht, hpmc⟩, finalReturn_of_ne_nil _ _ (setKey_ne_nil _ _ _)]
        simp only [lookupJ]
        exact lookupKey_setKey_self _ _ _
      · intro hpmc
        have hifneg : ¬ (textContent x ≠ "" ∧ cfg.preserve_mixed_content = true) := by
          intro hcontra
          rw [hpmc] at hcontra
          exact absurd hcontra.2 (by simp)
        constructor
        · rw [xml_to_dict_eq_assemble, assemble_children_case cfg a x _ q qs hbc,
            if_neg hifneg, finalReturn_of_ne_nil _ _ hr1ne]
          simp only [lookupJ]
          apply lookupKey_eq_none
          intro hk
          rcases fst_updateAll_subset _ _ _ hk with h | h
          · obtain ⟨s, hs⟩ := fst_attribResult _ _ _ h
            exact at_key_ne_hash s hs.symm
          · rw [← hbc] at h
            have h2 := fst_buildChildren_subset _ _ h
            rw [childPairs_eq_map, List.map_map, List.mem_map] at h2
            obtain ⟨c, hc, hck⟩ := h2
            exact hnc c hc hck

        · rw [show eraseText (Element.mk t a x cs) = Element.mk t a none cs from rfl,
            xml_to_dict_eq_assemble, xml_to_dict_eq_assemble,
            assemble_children_case cfg a x _ q qs hbc,
            assemble_children_case cfg a none _ q qs hbc,
            if_neg hifneg, if_neg (fun hcontra => hcontra.1 rfl)]

/-- C3 counterexample: a child literally tagged `#text` makes the key
`"#text"` present in the output even with mixed-content preservation
disabled, against the claimed if-and-only-if. -/
theorem mixed_content_text_cex :
    (Config.mk false false false).preserve_mixed_content = false ∧
    lookupJ (xml_to_dict (Element.mk "a" [] (some "t")
        [Element.mk "#text" [] none []]) (Config.mk false false false))
      "#text" = some (JVal.obj []) :=
  ⟨rfl, rfl⟩

/-- C3 witness: scenario D-like, `<a> t <b/></a>` with default config. -/
theorem mixed_content_text_witness :
    lookupJ (xml_to_dict (Element.mk "a" [] (some " t ")
        [Element.mk "b" [] none []]) defaultConfig) "#text" = some (JVal.str "t") :=
  (mixed_content_text (Element.mk "a" [] (some " t ") [Element.mk "b" [] none []])
    defaultConfig (by simp [Element.children]) (by decide)
    (by
      intro c hc
      simp only [Element.children, List.mem_singleton] at hc
      subst hc
      decide)).1 rfl

/-- C4: an element with no attributes, no children, and blank or absent
text converts to `null` when `empty_elements_as_null` is set and to the
empty mapping otherwise; whitespace-only text is not preserved. -/
theorem empty_element_conversion (e : Element) (cfg : Config) (hA : e.attrib = [])
    (hC : e.children = []) (hT : textContent e.text = "") :
    xml_to_dict e cfg =
      if cfg.empty_elements_as_null then JVal.null else JVal.obj [] := by
  cases e with
  | mk t a x cs =>
      simp only [Element.attrib] at hA
      simp only [Element.children] at hC
      simp only [Element.text] at hT
      subst hA
      subst hC
      rw [xml_to_dict_eq_assemble,
        assemble_nochildren_case cfg [] x (childPairs [] cfg) rfl,
        if_neg (fun hcon => hcon hT)]
      rfl

/-- C4 witness: text that is only a no-break space U+00A0 (as produced by
`&#160;` in the document) is blank after `str.strip()`, and the element
converts to `null` with `empty_elements_as_null` on. -/
theorem empty_element_conversion_witness :
    xml_to_dict (Element.mk "a" [] (some "\u00a0") []) (Config.mk false true true) =
      JVal.null :=
  empty_element_conversion (Element.mk "a" [] (some "\u00a0") [])
    (Config.mk false true true) rfl rfl (by decide)

/-- C7: the converter is deterministic and its output is a pure function
of the element's attributes, trimmed text, and its children's (cleaned
tag, converted value) pairs alone — two elements agreeing on those three
convert identically. -/
theorem converter_deterministic (cfg : Config) (e₁ e₂ : Element)
    (hA : e₁.attrib = e₂.attrib)
    (hT : textContent e₁.text = textContent e₂.text)
    (hC : childPairs e₁.children cfg = childPairs e₂.children cfg) :
    xml_to_dict e₁ cfg = xml_to_dict e₂ cfg := by
  cases e₁ with
  | mk t1 a1 x1 cs1 =>
      cases e₂ with
      | mk t2 a2 x2 cs2 =>
          simp only [Element.attrib] at hA
          simp only [Element.text] at hT
          simp only [Element.children] at hC
          rw [xml_to_dict_eq_assemble, xml_to_dict_eq_assemble, hA, hC]
          exact assemble_text_congr cfg a2 _ x1 x2 hT

/-- C7 witness: same attributes, same trimmed text (different raw text and
tag), same children — equal outputs. -/
theorem converter_deterministic_witness :
    xml_to_dict (Element.mk "a" [("id", "1")] (some "  hi ") []) defaultConfig =
      xml_to_dict (Element.mk "zzz" [("id", "1")] (some "hi") []) defaultConfig :=
  converter_deterministic defaultConfig
    (Element.mk "a" [("id", "1")] (some "  hi ") [])
    (Element.mk "zzz" [("id", "1")] (some "hi") []) rfl (by decide) rfl

/-- C8: every value reachable in the converter's output is a string,
null, mapping, or list (`GoodVal` has exactly those constructors);
`JVal.num` and `JVal.bool` are never produced. -/
theorem output_values_good (e : Element) (cfg : Config) :
    GoodVal (xml_to_dict e cfg) :=
  goodVal_of_produced _ (xml_to_dict_produced cfg e)

/-- C6: both the converter and the namespace normalizer are total: with
fuel equal to the tree's node count, the fuelled interpreters never run
out of fuel and return exactly the total functions' values. -/
theorem converter_normalizer_total (e : Element) (cfg : Config) :
    fuelConvert (esize e) e cfg = some (xml_to_dict e cfg) ∧
    fuelNorm (esize e) e = some (preprocess_elem e) :=
  ⟨fuelConvert_complete (esize e) e cfg le_rfl, fuelNorm_complete (esize e) e le_rfl⟩

/-- C5 (amended): the namespace normalizer is idempotent on every tree in
which no element or attribute name contains a second `'}'` separator
after the first (`namesOk`); a name like `"a}b}c"` is stripped again by a
second pass. -/
theorem preprocess_idempotent (e : Element) (h : namesOk e = true) :
    preprocess_elem (preprocess_elem e) = preprocess_elem e := by
  induction e using element_induction with
  | step t a x cs ih =>
      rw [show namesOk (Element.mk t a x cs) =
        (!hasSep (strip_name t) && a.all (fun p => !hasSep (strip_name p.1)) &&
          namesOkList cs) from rfl, Bool.and_eq_true, Bool.and_eq_true] at h
      obtain ⟨⟨ht, ha⟩, hcs⟩ := h
      rw [show preprocess_elem (Element.mk t a x cs) =
        Element.mk (strip_name t) (normAttrib a) x (preprocess_list cs) from rfl]
      rw [show preprocess_elem (Element.mk (strip_name t) (normAttrib a) x
          (preprocess_list cs)) =
        Element.mk (strip_name (strip_name t)) (normAttrib (normAttrib a)) x
          (preprocess_list (preprocess_list cs)) from rfl]
      have ht' : hasSep (strip_name t) = false := by simpa using ht
      have ha' : ∀ p ∈ a, hasSep (strip_name p.1) = false := by
        rw [List.all_eq_true] at ha
        intro p hp
        simpa using ha p hp
      have hlist : preprocess_list (preprocess_list cs) = preprocess_list cs := by
        rw [preprocess_list_eq_map, preprocess_list_eq_map, List.map_map]
        apply List.map_congr_left
        intro c hc
        exact ih c hc (namesOkList_mem cs hcs c hc)
      rw [strip_name_of_no_sep _ ht', normAttrib_idem a ha', hlist]

/-- C5 counterexample: the tag `"a}b}c"` becomes `"b}c"` after one pass
and `"c"` after two, so normalization is not idempotent on every tree. -/
theorem preprocess_idempotent_cex :
    preprocess_elem (preprocess_elem (Element.mk "a\x7db\x7dc" [] none [])) ≠
      preprocess_elem (Element.mk "a\x7db\x7dc" [] none []) := by
  intro h
  have h2 := congrArg Element.tag h
  have hL : (preprocess_elem (preprocess_elem (Element.mk "a\x7db\x7dc" [] none []))).tag
      = "c" := rfl
  have hR : (preprocess_elem (Element.mk "a\x7db\x7dc" [] none [])).tag = "b\x7dc" := rfl
  rw [hL, hR] at h2
  exact absurd h2 (by decide)

/-- C5 witness: a realistically namespaced tree normalizes idempotently. -/
theorem preprocess_idempotent_witness :
    preprocess_elem (preprocess_elem (Element.mk "\x7bu\x7da" [("\x7bu\x7did", "7")] none
        [Element.mk "b" [] (some "x") []])) =
      preprocess_elem (Element.mk "\x7bu\x7da" [("\x7bu\x7did", "7")] none
        [Element.mk "b" [] (some "x") []]) :=
  preprocess_idempotent (Element.mk "\x7bu\x7da" [("\x7bu\x7did", "7")] none
    [Element.mk "b" [] (some "x") []]) (by decide)

/-- C10: the top-level result is never a list (it is null, a string, or a
mapping); lists never nest directly inside lists (`ProducedVal`); and the
converter equals the variant whose final returns skip the emptiness
fallback, so that fallback branch is dead code. -/
theorem top_level_shape (e : Element) (cfg : Config) :
    (xml_to_dict e cfg = JVal.null ∨ (∃ s, xml_to_dict e cfg = JVal.str s) ∨
      (∃ r, xml_to_dict e cfg = JVal.obj r)) ∧
    ProducedVal (xml_to_dict e cfg) ∧
    xml_to_dict_alt e cfg = xml_to_dict e cfg :=
  ⟨xml_to_dict_shape e cfg, xml_to_dict_produced cfg e, xml_to_dict_alt_eq cfg e⟩

end X2J
